import Mathlib

/-!
Verification development for `hutch_python/namespace.py`.

This file gives a shallow embedding of the two namespace-building
functions of the module, `class_namespace` and `tree_namespace`
(together with their helpers `inspect_device_cls` and `unpack_node`),
and proves properties about the embedding.

Modelling notes:
* Python objects are modelled by the inductive type `PyObj`.  An object
  carries its attribute dictionary explicitly; whether `setattr`
  succeeds on it is part of the constructor (`IterableNamespace` and
  plain functions always accept attributes, `None` / bound methods
  never do, generic instances carry a `settable` flag).
* Exceptions are modelled with `Except PyErr`; code that the source
  wraps in `try`/`except` handles the corresponding error value, code
  outside such a block propagates it.
* Logging is modelled by returning a `List LogMsg`; only the error and
  warning messages that the claims talk about are recorded (debug
  messages are dropped).
* `IterableNamespace`, `find_class` and `extract_objs` live in
  `hutch_python/utils.py`, which is not part of the sources; they are
  modelled from the spec where indicated.
* Python's `str.isidentifier` is modelled for ASCII strings, and
  `keyword.iskeyword` by the concrete list of Python keywords.
-/

namespace HutchPython

/-! ## Python-level basics -/

/-- Exceptions that the modelled code can raise. -/
inductive PyErr where
  | attributeError : PyErr
  | typeError : PyErr
  | recursionError : PyErr
deriving DecidableEq

/-- The log messages emitted by `namespace.py` at warning/error level.
Payloads record the parts of the format arguments the claims refer to. -/
inductive LogMsg where
  /-- `logger.error('Type %s could not be loaded')` in `class_namespace`. -/
  | typeLoadError (cls : String) : LogMsg
  /-- `'%s in %s is a reserved python keyword, omitting from tree'`. -/
  | keywordWarn (key name : String) : LogMsg
  /-- `'%s in %s is an invalid python identifier, omitting from tree'`. -/
  | identWarn (key name : String) : LogMsg
  /-- `'tried to overwrite %s.%s=%s'` in `unpack_node`. -/
  | overwriteWarn (key : String) : LogMsg
  /-- `'Object %r not a valid node, omitting from tree'` in `unpack_node`. -/
  | nodeWarn : LogMsg
deriving DecidableEq

/-- Python runtime objects, with explicit attribute dictionaries.
`inst cls pyname attrs settable` is a generic class instance: `cls` is
its class name, `pyname` models its `name` attribute when it is a
string (as on `ophyd` devices), `attrs` its attribute dictionary and
`settable` whether `setattr` succeeds on it.  `ns` is the
`IterableNamespace` container of `hutch_python.utils`, modelled from
the spec: a dynamically attribute-settable, iterable record. -/
inductive PyObj where
  | none : PyObj
  | func (fname : String) (attrs : List (String × PyObj)) : PyObj
  | method (mname : String) : PyObj
  | inst (cls : String) (pyname : Option String)
      (attrs : List (String × PyObj)) (settable : Bool) : PyObj
  | ns (attrs : List (String × PyObj)) : PyObj

/-- Lookup in an association list keyed by strings (a Python `dict`). -/
def lookupKey {α : Type} (k : String) : List (String × α) → Option α
  | [] => Option.none
  | p :: rest => if p.1 = k then some p.2 else lookupKey k rest

/-- Assignment in an association list: overwriting keeps the original
position, a fresh key is appended, as in a Python `dict`. -/
def setKey (k : String) (v : PyObj) :
    List (String × PyObj) → List (String × PyObj)
  | [] => [(k, v)]
  | p :: rest => if p.1 = k then (k, v) :: rest else p :: setKey k v rest

/-- The attribute dictionary of an object. -/
def attrsOf : PyObj → List (String × PyObj)
  | .none => []
  | .func _ a => a
  | .method _ => []
  | .inst _ _ a _ => a
  | .ns a => a

/-- Python `hasattr`. -/
def hasattrB (o : PyObj) (k : String) : Bool :=
  (lookupKey k (attrsOf o)).isSome

/-- Python `getattr`, as an `Option`. -/
def getattrO (o : PyObj) (k : String) : Option PyObj :=
  lookupKey k (attrsOf o)

/-- Whether `setattr` succeeds on the object. -/
def settableB : PyObj → Bool
  | .ns _ => true
  | .func _ _ => true
  | .inst _ _ _ s => s
  | _ => false

/-- Python `setattr`; `Option.none` models a raised `AttributeError`. -/
def setattrO : PyObj → String → PyObj → Option PyObj
  | .ns attrs, k, v => some (.ns (setKey k v attrs))
  | .func f attrs, k, v => some (.func f (setKey k v attrs))
  | .inst c nm attrs true, k, v => some (.inst c nm (setKey k v attrs) true)
  | _, _, _ => Option.none

/-- The name of the runtime class of an object (`obj.__class__`). -/
def classOf : PyObj → String
  | .none => "NoneType"
  | .func _ _ => "function"
  | .method _ => "method"
  | .inst c _ _ _ => c
  | .ns _ => "IterableNamespace"

/-- `inspect.isfunction`: true exactly for plain functions (not bound
methods, not class instances). -/
def isFunctionB : PyObj → Bool
  | .func _ _ => true
  | _ => false

/-- The Python reserved keywords (`keyword.kwlist`). -/
def pyKeywords : List String :=
  ["False", "None", "True", "and", "as", "assert", "async", "await",
   "break", "class", "continue", "def", "del", "elif", "else", "except",
   "finally", "for", "from", "global", "if", "import", "in", "is",
   "lambda", "nonlocal", "not", "or", "pass", "raise", "return", "try",
   "while", "with", "yield"]

/-- `keyword.iskeyword`. -/
def iskeyword (s : String) : Bool := pyKeywords.contains s

/-- Valid first character of a Python identifier (ASCII model). -/
def isIdentStart (c : Char) : Bool := c.isAlpha || c = '_'

/-- Valid continuation character of a Python identifier (ASCII model). -/
def isIdentChar (c : Char) : Bool := c.isAlphanum || c = '_'

/-- Python `str.isidentifier`, for ASCII strings. -/
def isidentifier (s : String) : Bool :=
  match s.data with
  | [] => false
  | c :: cs => isIdentStart c && cs.all isIdentChar

/-- Split a character list on `'_'`; like Python's `str.split('_')`,
the result is never empty and empty segments are kept. -/
def splitSegs : List Char → List (List Char)
  | [] => [[]]
  | c :: rest =>
    match splitSegs rest with
    | [] => [[]]
    | s :: ss => if c = '_' then [] :: s :: ss else (c :: s) :: ss

/-- Python `name.split('_')`. -/
def splitName (s : String) : List String :=
  (splitSegs s.data).map (fun cs => String.mk cs)

/-! ## The name tree of `tree_namespace` -/

/-- A node of the intermediate nested `defaultdict`: the optional
`'_obj'` entry (which may itself hold Python `None`), and the child
keys in insertion order. -/
inductive Node where
  | mk (slot : Option PyObj) (children : List (String × Node))

/-- The `'_obj'` slot of a node. -/
def Node.slot : Node → Option PyObj
  | .mk s _ => s

/-- The children of a node. -/
def Node.children : Node → List (String × Node)
  | .mk _ c => c

/-- A fresh empty `defaultdict` node. -/
def emptyNode : Node := .mk Option.none []

/-- Descending through the nested `defaultdict` along `keys` and
storing `obj` under `'_obj'` at the end (`curr_dict = curr_dict[key]`
followed by `curr_dict['_obj'] = obj`).  Missing intermediate nodes are
created by the `defaultdict`, appended in insertion order. -/
def insertNode : Node → List String → PyObj → Node
  | .mk _slot children, [], obj => .mk (some obj) children
  | .mk slot children, k :: rest, obj =>
    match lookupKey k children with
    | some child =>
        .mk slot (children.map fun p =>
          if p.1 = k then (k, insertNode child rest obj) else p)
    | Option.none =>
        .mk slot (children ++ [(k, insertNode emptyNode rest obj)])

/-- The validity loop of `tree_namespace`: walk the split keys, warn on
the first key that is a reserved keyword or not an identifier.
`Option.none` means the name is valid. -/
def checkKeys (name : String) : List String → Option LogMsg
  | [] => Option.none
  | k :: rest =>
    if iskeyword k then some (.keywordWarn k name)
    else if !(isidentifier k) then some (.identWarn k name)
    else checkKeys name rest

/-- One iteration of the accumulation loop of `tree_namespace`. -/
def buildStep (acc : Node × List LogMsg) (entry : String × PyObj) :
    Node × List LogMsg :=
  let keys := splitName entry.1
  match checkKeys entry.1 keys with
  | some w => (acc.1, acc.2 ++ [w])
  | Option.none => (insertNode acc.1 keys entry.2, acc.2)

/-- The accumulation loop of `tree_namespace` over `objs.items()`. -/
def buildTree (objs : List (String × PyObj)) : Node × List LogMsg :=
  objs.foldl buildStep (emptyNode, [])

/-- The tree produced by the accumulation loop of `tree_namespace`,
considered without the log. -/
def buildNode (t : Node) : List (String × PyObj) → Node
  | [] => t
  | e :: rest =>
    match checkKeys e.1 (splitName e.1) with
    | some _ => buildNode t rest
    | Option.none => buildNode (insertNode t (splitName e.1) e.2) rest

/-- The warnings produced by the accumulation loop of `tree_namespace`. -/
def buildLog : List (String × PyObj) → List LogMsg
  | [] => []
  | e :: rest =>
    match checkKeys e.1 (splitName e.1) with
    | some w => w :: buildLog rest
    | Option.none => buildLog rest

/-- `obj = node.pop('_obj', None); if obj is None: obj = IterableNamespace()`. -/
def initLeaf : Option PyObj → PyObj
  | some PyObj.none => .ns []
  | some v => v
  | Option.none => .ns []

/-- `unpack_node`: choose the node's container, then attach every
unpacked child, skipping (with a warning) keys the container already
exposes, and replacing the container by a fresh `IterableNamespace`
when `setattr` raises `AttributeError`. -/
def unpackNode : Node → PyObj × List LogMsg
  | .mk slot children => go (initLeaf slot, []) children
where
  /-- `for key, value in node.items(): ...` -/
  go : PyObj × List LogMsg → List (String × Node) → PyObj × List LogMsg
    | acc, [] => acc
    | acc, (key, child) :: rest =>
      if hasattrB acc.1 key then
        go (acc.1, acc.2 ++ [.overwriteWarn key]) rest
      else
        let sub := unpackNode child
        match setattrO acc.1 key sub.1 with
        | some o2 => go (o2, acc.2 ++ sub.2) rest
        | Option.none =>
            go (.ns [(key, sub.1)], acc.2 ++ sub.2 ++ [.nodeWarn]) rest

/-- `tree_namespace`.  The argument models the Python parameter
`objs=None`: `Option.none` is the default.  Line 132 of the source
evaluates `objs.keys()` unconditionally, which raises
`AttributeError` when `objs` is `None`. -/
def tree_namespace (objs : Option (List (String × PyObj))) :
    Except PyErr (PyObj × List LogMsg) :=
  match objs with
  | Option.none => .error .attributeError
  | some m =>
    let built := buildTree m
    let unpacked := unpackNode built.1
    .ok (unpacked.1, built.2 ++ unpacked.2)

/-- Repeated attribute access along a path of names. -/
def getattrPath : PyObj → List String → Option PyObj
  | o, [] => some o
  | o, k :: rest =>
    match getattrO o k with
    | some o2 => getattrPath o2 rest
    | Option.none => Option.none

/-! ## Classes, devices and `class_namespace` -/

/-- A component slot as seen on an `ophyd` device class:
`cls` models the component's `cls` attribute (`Option.none` when the
component object has no `cls` attribute at all, the
"otherwise excluded" case), `lazy` its `lazy` flag. -/
structure ComponentDef where
  cls : Option String
  lazy : Bool

/-- The static class environment the module runs in: the `issubclass`
relation between class names, the class-level component table
(`device_cls.component_names` together with `getattr(device_cls,
cpt_name)`), and `find_class` of `hutch_python.utils`, modelled from
the spec as a resolver that either returns a class or fails. -/
structure ClassEnv where
  subclass : String → String → Bool
  components : String → List (String × ComponentDef)
  findClass : String → Option String

/-- The `cls` argument of `class_namespace`: a type, or a string
(a textual class path, or the `'function'` sentinel). -/
inductive ClsArg where
  | type (c : String) : ClsArg
  | str (s : String) : ClsArg

/-- The filter after the string-resolution step: either a real class,
or the `'function'` sentinel string left as-is. -/
inductive Resolved where
  | sentinel : Resolved
  | cls (c : String) : Resolved

/-- `issubclass(c, desired)`.  When `desired` is still the string
`'function'`, Python raises `TypeError: issubclass() arg 2 must be a
class`. -/
def issubclassE (env : ClassEnv) (c : String) : Resolved → Except PyErr Bool
  | .sentinel => .error .typeError
  | .cls d => .ok (env.subclass c d)

/-- `isinstance(o, c)`: the runtime class of `o` is `c` or a subclass. -/
def isinstanceB (env : ClassEnv) (o : PyObj) (c : String) : Bool :=
  env.subclass (classOf o) c

/-- The per-call discovery cache: class name to list of attribute
paths. -/
abbrev Cache := List (String × List (List String))

/-- The component loop of `inspect_device_cls`
(`for cpt_name in device_cls.component_names: ...`); the recursive call
into the helper itself is abstracted as `rec`. -/
def inspectComps (env : ClassEnv) (desired : Resolved)
    (rec : String → Cache → Except PyErr (List (List String) × Cache)) :
    List (String × ComponentDef) → List (List String) → Cache →
      Except PyErr (List (List String) × Cache)
  | [], attrs, cache => .ok (attrs, cache)
  | (cpt_name, cpt) :: comps, attrs, cache =>
    match cpt.cls, cpt.lazy with
    | some ccls, false =>
      match issubclassE env ccls desired with
      | .error e => .error e
      | .ok b =>
        let attrs1 := if b then attrs ++ [[cpt_name]] else attrs
        match rec ccls cache with
        | .error e => .error e
        | .ok (subattrs, cache2) =>
            inspectComps env desired rec comps
              (attrs1 ++ subattrs.map (fun a => cpt_name :: a)) cache2
    | _, _ => inspectComps env desired rec comps attrs cache

/-- `inspect_device_cls`.  The `Nat` argument models the interpreter
recursion limit: entering the function with it exhausted raises
`RecursionError`.  Note that the cache entry for `device_cls` is only
written *after* the component loop, so the function has no protection
against cyclic class graphs. -/
def inspect_device_cls (env : ClassEnv) (desired : Resolved) :
    String → Cache → Nat → Except PyErr (List (List String) × Cache)
  | _, _, 0 => .error .recursionError
  | device_cls, cache, limit + 1 =>
    match lookupKey device_cls cache with
    | some attrs => .ok (attrs, cache)
    | Option.none =>
      if env.subclass device_cls "Device" then
        match inspectComps env desired
            (fun c ca => inspect_device_cls env desired c ca limit)
            (env.components device_cls) [] cache with
        | .error e => .error e
        | .ok (attrs, cache2) => .ok (attrs, cache2 ++ [(device_cls, attrs)])
      else .ok ([], cache ++ [(device_cls, [])])

/-- `device.name`, used as the attribute name under which a discovered
subdevice is stored; only a generic instance with a string `name` has
one in the model. -/
def getName : PyObj → Except PyErr String
  | .inst _ (some nm) _ _ => .ok nm
  | _ => .error .attributeError

/-- `for attr in attrs: device = getattr(device, attr)`. -/
def walkPath : PyObj → List String → Except PyErr PyObj
  | o, [] => .ok o
  | o, attr :: rest =>
    match getattrO o attr with
    | some o2 => walkPath o2 rest
    | Option.none => .error .attributeError

/-- `setattr(class_space, name, obj)`: `class_space` is always an
`IterableNamespace`, on which `setattr` always succeeds. -/
def setattrNs (space : PyObj) (k : String) (v : PyObj) : PyObj :=
  match space with
  | .ns a => .ns (setKey k v a)
  | o => o

/-- `for attrs in subdevice_attrs: ...` — walk the instance along each
discovered path and store the subdevice under its own `name`. -/
def addSubdevices (obj : PyObj) :
    List (List String) → PyObj → Except PyErr PyObj
  | [], space => .ok space
  | path :: rest, space =>
    match walkPath obj path with
    | .error e => .error e
    | .ok d =>
      match getName d with
      | .error e => .error e
      | .ok nm => addSubdevices obj rest (setattrNs space nm d)

/-- `for name, obj in scope_objs.items(): ...` of `class_namespace`. -/
def procScope (env : ClassEnv) (resolved : Resolved) :
    List (String × PyObj) → PyObj → Cache → Nat → Except PyErr PyObj
  | [], space, _, _ => .ok space
  | (name, obj) :: rest, space, cache, limit =>
    let include1 : Bool :=
      match resolved with
      | .sentinel => isFunctionB obj
      | .cls c => isinstanceB env obj c
    let space1 := if include1 then setattrNs space name obj else space
    if isinstanceB env obj "Device" then
      match inspect_device_cls env resolved (classOf obj) cache limit with
      | .error e => .error e
      | .ok (attrsList, cache2) =>
        match addSubdevices obj attrsList space1 with
        | .error e => .error e
        | .ok space2 => procScope env resolved rest space2 cache2 limit
    else procScope env resolved rest space1 cache limit

/-- `class_namespace`.  `scope_objs` is the flat mapping produced by
the external scope-resolution collaborator `extract_objs` (modelled
from the spec as an explicit argument).  `limit` is the interpreter
recursion limit passed to the discovery helper. -/
def class_namespace (env : ClassEnv) (cls : ClsArg)
    (scope_objs : List (String × PyObj)) (limit : Nat) :
    Except PyErr (PyObj × List LogMsg) :=
  match cls with
  | .str s =>
    if s = "function" then
      (procScope env .sentinel scope_objs (.ns []) [] limit).map
        (fun sp => (sp, []))
    else
      match env.findClass s with
      | Option.none => .ok (.ns [], [.typeLoadError s])
      | some c =>
        (procScope env (.cls c) scope_objs (.ns []) [] limit).map
          (fun sp => (sp, []))
  | .type c =>
    (procScope env (.cls c) scope_objs (.ns []) [] limit).map
      (fun sp => (sp, []))

/-- Well-formedness of an object with respect to the class environment,
following the composite data model of the spec: an object whose class
is a `Device` subclass is a generic instance with a string `name`, and
carries, for every non-lazy component slot of its class, a live
sub-instance of exactly the slot's declared class; component
sub-objects are recursively well-formed.  Objects of other shapes are
never `Device` instances. -/
def wfObj (env : ClassEnv) : PyObj → Bool
  | .inst c nm attrs _ =>
    (if env.subclass c "Device" then
      nm.isSome &&
      (env.components c).all (fun p =>
        match p.2.cls, p.2.lazy with
        | some ccls, false =>
          match lookupKey p.1 attrs with
          | some (.inst ccls2 nm2 _ _) => ccls2 == ccls && nm2.isSome
          | _ => false
        | _, _ => true)
    else true) && wfList attrs
  | .ns attrs => !(env.subclass "IterableNamespace" "Device") && wfList attrs
  | .func _ attrs => !(env.subclass "function" "Device") && wfList attrs
  | .method _ => !(env.subclass "method" "Device")
  | .none => !(env.subclass "NoneType" "Device")
where
  /-- All attribute values are well-formed. -/
  wfList : List (String × PyObj) → Bool
    | [] => true
    | p :: rest => wfObj env p.2 && wfList rest

/-- Well-formedness of a whole scope mapping. -/
def wfScope (env : ClassEnv) : List (String × PyObj) → Bool
  | [] => true
  | p :: rest => wfObj env p.2 && wfScope env rest

/-! ## Specification predicates -/

/-- Boolean prefix test on segment paths. -/
def pathPre : List String → List String → Bool
  | [], _ => true
  | _ :: _, [] => false
  | a :: as, b :: bs => a == b && pathPre as bs

/-- The spine of the name tree for one target name: along the listed
keys every node has no stored leaf (no `'_obj'` entry, or one holding
Python `None`) and duplicate-free child keys, and the final node stores
exactly `v` with no children. -/
inductive GoodSpine (v : PyObj) : Node → List String → Prop
  | nil : GoodSpine v (.mk (some v) []) []
  | cons {slot : Option PyObj} {children : List (String × Node)}
      {k : String} {rest : List String} {child : Node} :
      (slot = Option.none ∨ slot = some PyObj.none) →
      lookupKey k children = some child →
      (children.map Prod.fst).Nodup →
      GoodSpine v child rest →
      GoodSpine v (.mk slot children) (k :: rest)

/-- The tree is ready to receive the path: no node along the existing
part of the path stores a leaf object, and the full path does not yet
lead to a node. -/
def CleanFor : Node → List String → Prop
  | _, [] => False
  | .mk slot children, k :: rest =>
    (slot = Option.none ∨ slot = some PyObj.none) ∧
    (match lookupKey k children with
     | some child => CleanFor child rest
     | Option.none => True)

/-- Every node of the tree has duplicate-free child keys. -/
inductive NodupDeep : Node → Prop
  | mk {slot : Option PyObj} {children : List (String × Node)} :
      (children.map Prod.fst).Nodup →
      (∀ p ∈ children, NodupDeep p.2) →
      NodupDeep (.mk slot children)

/-- A discovered attribute path from class `c` to a subdevice of a
subclass of `D`: every traversed slot is a non-lazy component with a
declared class, and the final slot's class is a subclass of `D`. -/
inductive GoodPath (env : ClassEnv) (D : String) : String → List String → Prop
  | single {c cn ccls : String} {cd : ComponentDef} :
      env.subclass c "Device" = true →
      (cn, cd) ∈ env.components c →
      cd.cls = some ccls → cd.lazy = false →
      env.subclass ccls D = true →
      GoodPath env D c [cn]
  | cons {c cn ccls : String} {cd : ComponentDef} {rest : List String} :
      env.subclass c "Device" = true →
      (cn, cd) ∈ env.components c →
      cd.cls = some ccls → cd.lazy = false →
      GoodPath env D ccls rest →
      GoodPath env D c (cn :: rest)

/-- An attribute path that traverses (and ends in) only non-lazy
component slots that expose a declared class. -/
inductive LazyFree (env : ClassEnv) : String → List String → Prop
  | single {c cn ccls : String} {cd : ComponentDef} :
      (cn, cd) ∈ env.components c →
      cd.cls = some ccls → cd.lazy = false →
      LazyFree env c [cn]
  | cons {c cn ccls : String} {cd : ComponentDef} {rest : List String} :
      (cn, cd) ∈ env.components c →
      cd.cls = some ccls → cd.lazy = false →
      LazyFree env ccls rest →
      LazyFree env c (cn :: rest)

/-- Soundness of a discovery result relative to the resolved filter:
under the `'function'` sentinel no path is ever sound (`issubclass`
raises before any could be recorded). -/
def PathOk (env : ClassEnv) : Resolved → String → List String → Prop
  | .sentinel, _, _ => False
  | .cls d, c, p => GoodPath env d c p

/-- Every cached entry is a sound discovery result for its class. -/
def CacheOk (env : ClassEnv) (resolved : Resolved) (cache : Cache) : Prop :=
  ∀ c lst, (c, lst) ∈ cache → ∀ p ∈ lst, PathOk env resolved c p

/-- What it means for an object to match the resolved filter. -/
def ResolvedPred (env : ClassEnv) (resolved : Resolved) (o : PyObj) : Prop :=
  match resolved with
  | .sentinel => isFunctionB o = true
  | .cls c => isinstanceB env o c = true

/-- What it means for a stored object to match the requested filter of
`class_namespace`. -/
def matchesTarget (env : ClassEnv) (cls : ClsArg) (o : PyObj) : Prop :=
  match cls with
  | .type c => isinstanceB env o c = true
  | .str s =>
    if s = "function" then isFunctionB o = true
    else
      match env.findClass s with
      | some c => isinstanceB env o c = true
      | Option.none => False

/-! ## Concrete instances used in witnesses and counterexamples -/

/-- A class table with one device class `DevF` holding a single
non-lazy component of class `X`. -/
def envSentinel : ClassEnv :=
  { subclass := fun a b => [("DevF", "Device")].contains (a, b)
    components := fun c => if c = "DevF" then [("c1", ⟨some "X", false⟩)] else []
    findClass := fun _ => Option.none }

/-- A `DevF` instance. -/
def devSentinel : PyObj := .inst "DevF" (some "d") [] true

/-- A cyclic class table: device class `A` has a non-lazy component
whose declared class is `A` itself. -/
def envCycle : ClassEnv :=
  { subclass := fun a b => [("A", "Device")].contains (a, b)
    components := fun c => if c = "A" then [("s", ⟨some "A", false⟩)] else []
    findClass := fun _ => Option.none }

/-- A class table with device class `DevA` holding a non-lazy
component of class `D`. -/
def envShadow : ClassEnv :=
  { subclass := fun a b => [("D", "D"), ("DevA", "Device")].contains (a, b)
    components := fun c => if c = "DevA" then [("x", ⟨some "D", false⟩)] else []
    findClass := fun _ => Option.none }

/-- A subdevice of class `D` whose own `name` is `"m"`. -/
def subdevD : PyObj := .inst "D" (some "m") [] true

/-- A `DevA` instance carrying `subdevD` at slot `x`. -/
def devShadow : PyObj := .inst "DevA" (some "adev") [("x", subdevD)] true

/-- A plain `D` instance, distinct from `subdevD`. -/
def scopeD : PyObj := .inst "D" Option.none [] true

/-- A class table with a device class `Dev` that has one non-lazy
component of class `T`, one lazy component of class `T`, and one
component without a `cls` attribute. -/
def envLazy : ClassEnv :=
  { subclass := fun a b => [("Dev", "Device"), ("T", "T")].contains (a, b)
    components := fun c =>
      if c = "Dev" then
        [("good", ⟨some "T", false⟩), ("lz", ⟨some "T", true⟩),
         ("nocls", ⟨Option.none, false⟩)]
      else []
    findClass := fun _ => Option.none }

/-! ## Basic lemmas about attribute dictionaries -/

theorem lookupKey_setKey_self (k : String) (v : PyObj)
    (a : List (String × PyObj)) : lookupKey k (setKey k v a) = some v := by
  induction a with
  | nil => simp [setKey, lookupKey]
  | cons p rest ih =>
    by_cases h : p.1 = k
    · simp [setKey, h, lookupKey]
    · simp [setKey, h, lookupKey, ih]

theorem lookupKey_setKey_ne (k key : String) (v : PyObj)
    (a : List (String × PyObj)) (h : key ≠ k) :
    lookupKey key (setKey k v a) = lookupKey key a := by
  have h2 : ¬(k = key) := h.symm
  induction a with
  | nil => simp [setKey, lookupKey, h2]
  | cons p rest ih =>
    by_cases hp : p.1 = k
    · have hp2 : ¬(p.1 = key) := by rw [hp]; exact h2
      simp [setKey, hp, lookupKey, h2, hp2]
    · simp [setKey, hp, lookupKey, ih]

theorem setattrO_of_settable {o : PyObj} (h : settableB o = true)
    (k : String) (v : PyObj) :
    ∃ o2, setattrO o k v = some o2 ∧ settableB o2 = true ∧
      attrsOf o2 = setKey k v (attrsOf o) := by
  cases o with
  | ns a => exact ⟨_, rfl, rfl, rfl⟩
  | func f a => exact ⟨_, rfl, rfl, rfl⟩
  | inst c nm a s =>
    cases s with
    | false => simp [settableB] at h
    | true => exact ⟨_, rfl, rfl, rfl⟩
  | none => simp [settableB] at h
  | method m => simp [settableB] at h

theorem setattrO_none_of_not_settable {o : PyObj} (h : settableB o = false)
    (k : String) (v : PyObj) : setattrO o k v = Option.none := by
  cases o with
  | ns a => simp [settableB] at h
  | func f a => simp [settableB] at h
  | inst c nm a s =>
    cases s with
    | false => rfl
    | true => simp [settableB] at h
  | none => rfl
  | method m => rfl

theorem initLeaf_of_ne {v : PyObj} (h : v ≠ PyObj.none) :
    initLeaf (some v) = v := by
  cases v with
  | none => exact absurd rfl h
  | func f a => rfl
  | method m => rfl
  | inst c nm a s => rfl
  | ns a => rfl

/-! ## Lemmas about the unpacking loop of `tree_namespace` -/

theorem unpack_go_append (acc : PyObj × List LogMsg)
    (l1 l2 : List (String × Node)) :
    unpackNode.go (unpackNode.go acc l1) l2 = unpackNode.go acc (l1 ++ l2) := by
  induction l1 generalizing acc with
  | nil => simp [unpackNode.go]
  | cons p rest ih =>
    obtain ⟨key, child⟩ := p
    by_cases h : hasattrB acc.1 key = true
    · simp only [List.cons_append, unpackNode.go, h, if_pos]
      exact ih _
    · simp only [List.cons_append, unpackNode.go, h, if_neg,
        Bool.not_eq_true]
      cases hs : setattrO acc.1 key (unpackNode child).1 with
      | none => simp only [hs]; exact ih _
      | some o2 => simp only [hs]; exact ih _

theorem unpack_go_preserve (key : String) (l : List (String × Node)) :
    ∀ (acc : PyObj × List LogMsg), settableB acc.1 = true →
      key ∉ l.map Prod.fst →
      settableB (unpackNode.go acc l).1 = true ∧
      getattrO (unpackNode.go acc l).1 key = getattrO acc.1 key ∧
      ∀ w ∈ acc.2, w ∈ (unpackNode.go acc l).2 := by
  induction l with
  | nil => intro acc hs _; exact ⟨hs, rfl, fun w hw => hw⟩
  | cons p rest ih =>
    intro acc hs hk
    obtain ⟨k', child⟩ := p
    have hk1 : key ≠ k' := by
      intro hcon
      exact hk (by simp [hcon])
    have hk2 : key ∉ rest.map Prod.fst := by
      intro hcon
      exact hk (by simp [hcon])
    by_cases h : hasattrB acc.1 k' = true
    · simp only [unpackNode.go, h, if_pos]
      obtain ⟨a1, a2, a3⟩ := ih (acc.1, acc.2 ++ [.overwriteWarn k']) hs hk2
      exact ⟨a1, a2, fun w hw => a3 w (List.mem_append_left _ hw)⟩
    · simp only [unpackNode.go, h, if_neg, Bool.not_eq_true]
      obtain ⟨o2, heq, hset2, hattrs⟩ :=
        setattrO_of_settable hs k' (unpackNode child).1
      rw [heq]
      obtain ⟨a1, a2, a3⟩ :=
        ih (o2, acc.2 ++ (unpackNode child).2) hset2 hk2
      refine ⟨a1, ?_, fun w hw => a3 w (List.mem_append_left _ hw)⟩
      rw [a2]
      show lookupKey key (attrsOf o2) = getattrO acc.1 key
      rw [hattrs, lookupKey_setKey_ne _ _ _ _ hk1]
      rfl

theorem unpackNode_single (slot : Option PyObj) (key : String) (child : Node) :
    unpackNode (.mk slot [(key, child)]) =
      if hasattrB (initLeaf slot) key then
        (initLeaf slot, [.overwriteWarn key])
      else
        match setattrO (initLeaf slot) key (unpackNode child).1 with
        | some o2 => (o2, (unpackNode child).2)
        | Option.none =>
            (.ns [(key, (unpackNode child).1)],
             (unpackNode child).2 ++ [.nodeWarn]) := by
  by_cases h : hasattrB (initLeaf slot) key = true
  · simp [unpackNode, unpackNode.go, h]
  · simp only [unpackNode, unpackNode.go, h, if_neg, Bool.not_eq_true,
      if_false, Bool.false_eq_true]
    cases hs : setattrO (initLeaf slot) key (unpackNode child).1 with
    | none => simp [unpackNode.go, hs]
    | some o2 => simp [unpackNode.go, hs]

/-! ## Lemmas about association lists and tree insertion -/

theorem lookupKey_eq_none_iff {α : Type} (k : String) (l : List (String × α)) :
    lookupKey k l = Option.none ↔ k ∉ l.map Prod.fst := by
  induction l with
  | nil => simp [lookupKey]
  | cons p rest ih =>
    by_cases h : p.1 = k
    · simp [lookupKey, h]
    · simp [lookupKey, h, ih, Ne.symm h]

theorem lookupKey_append {α : Type} (k : String) (l1 l2 : List (String × α)) :
    lookupKey k (l1 ++ l2) =
      match lookupKey k l1 with
      | some v => some v
      | Option.none => lookupKey k l2 := by
  induction l1 with
  | nil => simp [lookupKey]
  | cons p rest ih => by_cases h : p.1 = k <;> simp [lookupKey, h, ih]

theorem lookupKey_mem {α : Type} {k : String} {l : List (String × α)} {v : α}
    (h : lookupKey k l = some v) : (k, v) ∈ l := by
  induction l with
  | nil => simp [lookupKey] at h
  | cons p rest ih =>
    by_cases hp : p.1 = k
    · obtain ⟨a, b⟩ := p
      simp only [lookupKey, if_pos hp] at h
      cases hp
      cases h
      exact List.mem_cons_self _ _
    · simp only [lookupKey, if_neg hp] at h
      exact List.mem_cons_of_mem _ (ih h)

theorem lookupKey_replace_self {α : Type} (k : String) (w : α)
    (children : List (String × α)) (c0 : α)
    (h : lookupKey k children = some c0) :
    lookupKey k (children.map fun p => if p.1 = k then (k, w) else p) =
      some w := by
  induction children with
  | nil => simp [lookupKey] at h
  | cons p rest ih =>
    by_cases hp : p.1 = k
    · simp [lookupKey, hp]
    · simp only [lookupKey, if_neg hp] at h
      simp only [List.map_cons, if_neg hp]
      simp only [lookupKey, if_neg hp]
      exact ih h

theorem lookupKey_replace_ne {α : Type} (k k2 : String) (w : α)
    (children : List (String × α)) (h : k2 ≠ k) :
    lookupKey k2 (children.map fun p => if p.1 = k then (k, w) else p) =
      lookupKey k2 children := by
  induction children with
  | nil => simp [lookupKey]
  | cons p rest ih =>
    by_cases hp : p.1 = k
    · have hp2 : ¬(k = k2) := fun hh => h (hh.symm)
      have hp3 : ¬(p.1 = k2) := by rw [hp]; exact hp2
      simp only [List.map_cons, if_pos hp, lookupKey, if_neg hp2, if_neg hp3]
      exact ih
    · simp only [List.map_cons, if_neg hp, lookupKey]
      by_cases hq : p.1 = k2
      · simp [hq]
      · simp only [if_neg hq]
        exact ih

theorem keys_replace {α : Type} (k : String) (w : α)
    (children : List (String × α)) :
    (children.map fun p => if p.1 = k then (k, w) else p).map Prod.fst =
      children.map Prod.fst := by
  induction children with
  | nil => rfl
  | cons p rest ih =>
    by_cases hp : p.1 = k
    · simp [hp, ih]
    · simp [hp, ih]

theorem setKey_of_none (k : String) (v : PyObj) (a : List (String × PyObj))
    (h : lookupKey k a = Option.none) : setKey k v a = a ++ [(k, v)] := by
  induction a with
  | nil => rfl
  | cons p rest ih =>
    by_cases hp : p.1 = k
    · simp [lookupKey, hp] at h
    · simp only [lookupKey, if_neg hp] at h
      simp [setKey, hp, ih h]

theorem lookupKey_map {α β : Type} (k : String) (g : α → β)
    (l : List (String × α)) :
    lookupKey k (l.map fun q => (q.1, g q.2)) = (lookupKey k l).map g := by
  induction l with
  | nil => simp [lookupKey]
  | cons p rest ih => by_cases h : p.1 = k <;> simp [lookupKey, h, ih]

theorem lookupKey_map_unpack (k : String) (l : List (String × Node)) :
    lookupKey k (l.map fun q => (q.1, (unpackNode q.2).1)) =
      (lookupKey k l).map (fun n => (unpackNode n).1) := by
  induction l with
  | nil => simp [lookupKey]
  | cons p rest ih => by_cases h : p.1 = k <;> simp [lookupKey, h, ih]

theorem nodup_snoc {k : String} {l : List String} (h1 : l.Nodup)
    (h2 : k ∉ l) : (l ++ [k]).Nodup := by
  simp [List.nodup_append, h1, h2]

theorem nodupDeep_children {slot : Option PyObj}
    {children : List (String × Node)} (h : NodupDeep (.mk slot children)) :
    (children.map Prod.fst).Nodup := by
  cases h with | mk h1 h2 => exact h1

theorem nodupDeep_mem {slot : Option PyObj}
    {children : List (String × Node)} (h : NodupDeep (.mk slot children))
    {p : String × Node} (hp : p ∈ children) : NodupDeep p.2 := by
  cases h with | mk h1 h2 => exact h2 p hp

theorem nodupDeep_empty : NodupDeep emptyNode :=
  NodupDeep.mk (by simp) (by simp)

theorem nodupDeep_insert (q : List String) (o : PyObj) :
    ∀ (t : Node), NodupDeep t → NodupDeep (insertNode t q o) := by
  induction q with
  | nil =>
    intro t ht
    cases t with | mk slot children =>
    cases ht with | mk h1 h2 => exact NodupDeep.mk h1 h2
  | cons k rest ih =>
    intro t ht
    cases t with | mk slot children =>
    cases ht with | mk h1 h2 =>
    cases hch : lookupKey k children with
    | some child =>
      simp only [insertNode, hch]
      refine NodupDeep.mk (by rw [keys_replace]; exact h1) ?_
      intro p hp
      obtain ⟨p0, hp0, rfl⟩ := List.mem_map.mp hp
      by_cases hpk : p0.1 = k
      · simp only [if_pos hpk]
        exact ih child (h2 (k, child) (lookupKey_mem hch))
      · simp only [if_neg hpk]
        exact h2 p0 hp0
    | none =>
      simp only [insertNode, hch]
      refine NodupDeep.mk ?_ ?_
      · simp only [List.map_append, List.map_cons, List.map_nil]
        exact nodup_snoc h1 ((lookupKey_eq_none_iff _ _).mp hch)
      · intro p hp
        rcases List.mem_append.mp hp with h | h
        · exact h2 p h
        · rcases List.mem_singleton.mp h with rfl
          exact ih emptyNode nodupDeep_empty

/-! ## Spine lemmas for the name tree -/

theorem goodSpine_fresh (o : PyObj) :
    ∀ (p : List String), GoodSpine o (insertNode emptyNode p o) p := by
  intro p
  induction p with
  | nil => exact GoodSpine.nil
  | cons k rest ih =>
    have h : insertNode emptyNode (k :: rest) o =
        .mk Option.none [(k, insertNode emptyNode rest o)] := by
      simp [insertNode, emptyNode, lookupKey]
    rw [h]
    exact GoodSpine.cons (Or.inl rfl) (by simp [lookupKey]) (by simp) ih

theorem cleanFor_fresh (o : PyObj) :
    ∀ (qrest rest : List String), pathPre rest qrest = false →
      pathPre qrest rest = false →
      CleanFor (insertNode emptyNode qrest o) rest := by
  intro qrest
  induction qrest with
  | nil => intro rest h1 h2; simp [pathPre] at h2
  | cons q1 qq ih =>
    intro rest h1 h2
    cases rest with
    | nil => simp [pathPre] at h1
    | cons r1 rr =>
      have hins : insertNode emptyNode (q1 :: qq) o =
          .mk Option.none [(q1, insertNode emptyNode qq o)] := by
        simp [insertNode, emptyNode, lookupKey]
      rw [hins]
      refine ⟨Or.inl rfl, ?_⟩
      by_cases hrq : r1 = q1
      · subst hrq
        have h1b : pathPre rr qq = false := by simpa [pathPre] using h1
        have h2b : pathPre qq rr = false := by simpa [pathPre] using h2
        have hl : lookupKey r1 [(r1, insertNode emptyNode qq o)] =
            some (insertNode emptyNode qq o) := by simp [lookupKey]
        simp only [hl]
        exact ih rr h1b h2b
      · have hl : lookupKey r1 [(q1, insertNode emptyNode qq o)] =
            Option.none := by
          simp [lookupKey, Ne.symm hrq]
        simp only [hl]

theorem goodSpine_insert (o : PyObj) :
    ∀ (p : List String) (t : Node),
      CleanFor t p → NodupDeep t → GoodSpine o (insertNode t p o) p := by
  intro p
  induction p with
  | nil => intro t hc _; simp [CleanFor] at hc
  | cons k rest ih =>
    intro t hc hnd
    cases t with | mk slot children =>
    obtain ⟨hclean, hmatch⟩ := hc
    cases hch : lookupKey k children with
    | some child =>
      simp only [hch] at hmatch
      simp only [insertNode, hch]
      exact GoodSpine.cons hclean
        (lookupKey_replace_self k _ children child hch)
        (by rw [keys_replace]; exact nodupDeep_children hnd)
        (ih child hmatch (nodupDeep_mem hnd (lookupKey_mem hch)))
    | none =>
      simp only [insertNode, hch]
      refine GoodSpine.cons hclean ?_ ?_ (goodSpine_fresh o rest)
      · rw [lookupKey_append]
        simp [hch, lookupKey]
      · simp only [List.map_append, List.map_cons, List.map_nil]
        exact nodup_snoc (nodupDeep_children hnd)
          ((lookupKey_eq_none_iff _ _).mp hch)

theorem goodSpine_preserve {v : PyObj} :
    ∀ {t : Node} {p : List String}, GoodSpine v t p →
    ∀ (q : List String) (o : PyObj),
      pathPre q p = false → pathPre p q = false →
      GoodSpine v (insertNode t q o) p := by
  intro t p h
  induction h with
  | nil =>
    intro q o hqp hpq
    simp [pathPre] at hpq
  | @cons slot children k rest child hclean hlook hnodup hsub ih =>
    intro q o hqp hpq
    cases q with
    | nil => simp [pathPre] at hqp
    | cons kq qrest =>
      by_cases hkk : kq = k
      · subst hkk
        have hqp2 : pathPre qrest rest = false := by
          simpa [pathPre] using hqp
        have hpq2 : pathPre rest qrest = false := by
          simpa [pathPre] using hpq
        simp only [insertNode, hlook]
        exact GoodSpine.cons hclean
          (lookupKey_replace_self kq _ children child hlook)
          (by rw [keys_replace]; exact hnodup)
          (ih qrest o hqp2 hpq2)
      · cases hch : lookupKey kq children with
        | some c2 =>
          simp only [insertNode, hch]
          exact GoodSpine.cons hclean
            (by rw [lookupKey_replace_ne kq k _ children (Ne.symm hkk)]
                exact hlook)
            (by rw [keys_replace]; exact hnodup)
            hsub
        | none =>
          simp only [insertNode, hch]
          refine GoodSpine.cons hclean ?_ ?_ hsub
          · rw [lookupKey_append]
            simp only [hlook]
          · simp only [List.map_append, List.map_cons, List.map_nil]
            exact nodup_snoc hnodup ((lookupKey_eq_none_iff _ _).mp hch)

theorem cleanFor_preserve (o : PyObj) :
    ∀ (p q : List String) (t : Node), CleanFor t p →
      pathPre q p = false → pathPre p q = false →
      CleanFor (insertNode t q o) p := by
  intro p
  induction p with
  | nil => intro q t hc _ _; simp [CleanFor] at hc
  | cons k rest ih =>
    intro q t hc hqp hpq
    cases t with | mk slot children =>
    obtain ⟨hclean, hmatch⟩ := hc
    cases q with
    | nil => simp [pathPre] at hqp
    | cons kq qrest =>
      by_cases hkk : kq = k
      · subst hkk
        have hqp2 : pathPre qrest rest = false := by simpa [pathPre] using hqp
        have hpq2 : pathPre rest qrest = false := by simpa [pathPre] using hpq
        cases hch : lookupKey kq children with
        | some child =>
          simp only [hch] at hmatch
          simp only [insertNode, hch]
          refine ⟨hclean, ?_⟩
          have hrw := lookupKey_replace_self kq (insertNode child qrest o)
            children child hch
          simp only [hrw]
          exact ih qrest child hmatch hqp2 hpq2
        | none =>
          simp only [insertNode, hch]
          refine ⟨hclean, ?_⟩
          have hl : lookupKey kq
              (children ++ [(kq, insertNode emptyNode qrest o)]) =
              some (insertNode emptyNode qrest o) := by
            rw [lookupKey_append]
            simp [hch, lookupKey]
          simp only [hl]
          exact cleanFor_fresh o qrest rest hpq2 hqp2
      · cases hch : lookupKey kq children with
        | some c2 =>
          simp only [insertNode, hch]
          refine ⟨hclean, ?_⟩
          rw [lookupKey_replace_ne kq k _ children (Ne.symm hkk)]
          exact hmatch
        | none =>
          simp only [insertNode, hch]
          refine ⟨hclean, ?_⟩
          rw [lookupKey_append]
          cases hck : lookupKey k children with
          | some child =>
            simp only [hck] at hmatch
            simp only [hck]
            exact hmatch
          | none =>
            simp only [hck]
            have : lookupKey k [(kq, insertNode emptyNode qrest o)] =
                Option.none := by
              simp [lookupKey, hkk]
            simp only [this]

/-! ## Unpacking a clean spine -/

theorem unpack_go_ns :
    ∀ (children : List (String × Node)) (a0 : List (String × PyObj))
      (log0 : List LogMsg),
      (children.map Prod.fst).Nodup →
      (∀ k2 ∈ children.map Prod.fst, lookupKey k2 a0 = Option.none) →
      (unpackNode.go (.ns a0, log0) children).1 =
        .ns (a0 ++ children.map fun q => (q.1, (unpackNode q.2).1)) := by
  intro children
  induction children with
  | nil => intro a0 log0 _ _; simp [unpackNode.go]
  | cons q rest ih =>
    intro a0 log0 hnodup hnone
    obtain ⟨k1, c1⟩ := q
    have hk1 : lookupKey k1 a0 = Option.none := hnone k1 (by simp)
    have hhas : hasattrB (.ns a0) k1 = false := by
      simp [hasattrB, attrsOf, hk1]
    have hset : setattrO (.ns a0) k1 (unpackNode c1).1 =
        some (.ns (a0 ++ [(k1, (unpackNode c1).1)])) := by
      simp [setattrO, setKey_of_none k1 _ a0 hk1]
    have hnodup2 : (rest.map Prod.fst).Nodup :=
      (List.nodup_cons.mp (by simpa using hnodup)).2
    have hout : k1 ∉ rest.map Prod.fst :=
      (List.nodup_cons.mp (by simpa using hnodup)).1
    simp only [unpackNode.go, hhas, Bool.false_eq_true, if_false, hset]
    rw [ih (a0 ++ [(k1, (unpackNode c1).1)]) _ hnodup2 ?_]
    · simp
    · intro k2 hk2
      rw [lookupKey_append]
      have h0 : lookupKey k2 a0 = Option.none := hnone k2 (by simp [hk2])
      simp only [h0]
      have hne : ¬(k1 = k2) := by
        intro hcon
        exact hout (hcon ▸ hk2)
      simp [lookupKey, hne]

theorem getattrPath_unpack_goodSpine {v : PyObj} :
    ∀ {t : Node} {p : List String}, GoodSpine v t p →
      getattrPath (unpackNode t).1 p = some (initLeaf (some v)) := by
  intro t p h
  induction h with
  | nil => simp [unpackNode, unpackNode.go, getattrPath]
  | @cons slot children k rest child hclean hlook hnodup hsub ih =>
    have hinit : initLeaf slot = .ns [] := by
      rcases hclean with h1 | h1 <;> rw [h1] <;> rfl
    have hun : (unpackNode (.mk slot children)).1 =
        .ns (children.map fun q => (q.1, (unpackNode q.2).1)) := by
      simp only [unpackNode, hinit]
      simpa using unpack_go_ns children [] [] hnodup (by intro k2 _; rfl)
    rw [hun]
    have hga : getattrO
        (.ns (children.map fun q => (q.1, (unpackNode q.2).1))) k =
        some ((unpackNode child).1) := by
      simp [getattrO, attrsOf, lookupKey_map_unpack, hlook]
    simp only [getattrPath, hga]
    exact ih

/-! ## The accumulation loop -/

theorem buildTree_eq :
    ∀ (L : List (String × PyObj)) (t : Node) (log : List LogMsg),
      L.foldl buildStep (t, log) = (buildNode t L, log ++ buildLog L) := by
  intro L
  induction L with
  | nil => intro t log; simp [buildNode, buildLog]
  | cons e rest ih =>
    intro t log
    simp only [List.foldl_cons, buildStep]
    cases hc : checkKeys e.1 (splitName e.1) with
    | some w =>
      simp only [hc, buildNode, buildLog]
      rw [ih]
      simp
    | none =>
      simp only [hc, buildNode, buildLog]
      rw [ih]

theorem buildNode_append :
    ∀ (L1 L2 : List (String × PyObj)) (t : Node),
      buildNode t (L1 ++ L2) = buildNode (buildNode t L1) L2 := by
  intro L1
  induction L1 with
  | nil => intro L2 t; simp [buildNode]
  | cons e rest ih =>
    intro L2 t
    simp only [List.cons_append, buildNode]
    cases hc : checkKeys e.1 (splitName e.1) with
    | some w => simp only [hc]; exact ih L2 t
    | none => simp only [hc]; exact ih L2 _

theorem buildNode_clean (p : List String) :
    ∀ (L : List (String × PyObj)) (t : Node),
      NodupDeep t → CleanFor t p →
      (∀ e ∈ L, pathPre (splitName e.1) p = false ∧
        pathPre p (splitName e.1) = false) →
      NodupDeep (buildNode t L) ∧ CleanFor (buildNode t L) p := by
  intro L
  induction L with
  | nil => intro t hnd hc _; exact ⟨hnd, hc⟩
  | cons e rest ih =>
    intro t hnd hc hall
    simp only [buildNode]
    cases hchk : checkKeys e.1 (splitName e.1) with
    | some w =>
      exact ih t hnd hc (fun e2 he2 => hall e2 (List.mem_cons_of_mem _ he2))
    | none =>
      obtain ⟨h1, h2⟩ := hall e (List.mem_cons_self _ _)
      exact ih _ (nodupDeep_insert _ _ _ hnd)
        (cleanFor_preserve _ p _ _ hc h1 h2)
        (fun e2 he2 => hall e2 (List.mem_cons_of_mem _ he2))

theorem buildNode_spine (p : List String) (v : PyObj) :
    ∀ (L : List (String × PyObj)) (t : Node),
      GoodSpine v t p →
      (∀ e ∈ L, pathPre (splitName e.1) p = false ∧
        pathPre p (splitName e.1) = false) →
      GoodSpine v (buildNode t L) p := by
  intro L
  induction L with
  | nil => intro t hg _; exact hg
  | cons e rest ih =>
    intro t hg hall
    simp only [buildNode]
    cases hchk : checkKeys e.1 (splitName e.1) with
    | some w =>
      exact ih t hg (fun e2 he2 => hall e2 (List.mem_cons_of_mem _ he2))
    | none =>
      obtain ⟨h1, h2⟩ := hall e (List.mem_cons_self _ _)
      exact ih _ (goodSpine_preserve hg _ _ h1 h2)
        (fun e2 he2 => hall e2 (List.mem_cons_of_mem _ he2))

theorem tree_namespace_eq (m : List (String × PyObj)) :
    tree_namespace (some m) =
      .ok ((unpackNode (buildNode emptyNode m)).1,
        buildLog m ++ (unpackNode (buildNode emptyNode m)).2) := by
  simp only [tree_namespace, buildTree]
  rw [buildTree_eq m emptyNode []]
  simp

/-- Main helper for Claims C2 and C10: a valid name whose path does
not interfere with any other name's path ends up, after unpacking, at
exactly the attribute path of its segments, holding its stored object
(or a fresh empty container when the stored object is `None`). -/
theorem tree_spine_reach (objs : List (String × PyObj)) (name : String)
    (obj : PyObj) (hmem : (name, obj) ∈ objs)
    (hnodup : (objs.map Prod.fst).Nodup)
    (hvalid : checkKeys name (splitName name) = Option.none)
    (hnil : splitName name ≠ [])
    (hinterf : ∀ e ∈ objs, e.1 ≠ name →
      pathPre (splitName e.1) (splitName name) = false ∧
      pathPre (splitName name) (splitName e.1) = false) :
    getattrPath (unpackNode (buildNode emptyNode objs)).1 (splitName name) =
      some (initLeaf (some obj)) := by
  obtain ⟨l1, l2, rfl⟩ := List.append_of_mem hmem
  have hnodup2 := hnodup
  rw [List.map_append, List.map_cons] at hnodup2
  have hnd := List.nodup_middle.mp hnodup2
  rcases List.nodup_cons.mp hnd with ⟨hout, _⟩
  have hl1 : ∀ e ∈ l1, e.1 ≠ name := by
    intro e he hcon
    exact hout (List.mem_append_left _ (List.mem_map.mpr ⟨e, he, hcon⟩))
  have hl2 : ∀ e ∈ l2, e.1 ≠ name := by
    intro e he hcon
    exact hout (List.mem_append_right _ (List.mem_map.mpr ⟨e, he, hcon⟩))
  rw [buildNode_append]
  have hstart_clean : CleanFor emptyNode (splitName name) := by
    cases hp : splitName name with
    | nil => exact absurd hp hnil
    | cons k rest => exact ⟨Or.inl rfl, by simp [lookupKey]⟩
  obtain ⟨hnd1, hcl1⟩ := buildNode_clean (splitName name) l1 emptyNode
    nodupDeep_empty hstart_clean
    (fun e he => hinterf e (List.mem_append_left _ he) (hl1 e he))
  simp only [buildNode, hvalid]
  have hsp := goodSpine_insert obj (splitName name) _ hcl1 hnd1
  have hfinal := buildNode_spine (splitName name) obj l2 _ hsp
    (fun e he => hinterf e
      (List.mem_append_right _ (List.mem_cons_of_mem _ he)) (hl2 e he))
  exact getattrPath_unpack_goodSpine hfinal

/-! ## Claim C3 -/

/-- C3: the claim states that `class_namespace` and `tree_namespace`
never raise, in particular for `class_namespace` with the `'function'`
sentinel over a scope containing a `Device`, and for `tree_namespace`
with its default argument.  The code violates both highlighted cases:
`tree_namespace()` evaluates `objs.keys()` on `None` (line 132), and
the sentinel reaches `issubclass(cpt.cls, 'function')` (line 73),
raising `AttributeError` and `TypeError` respectively. -/
theorem c3_code_bug_raises :
    tree_namespace Option.none = .error .attributeError ∧
    class_namespace envSentinel (.str "function") [("d", devSentinel)] 10 =
      .error .typeError := ⟨rfl, rfl⟩

/-! ## Claim C8 -/

/-- C8: when `class_namespace` is given a textual class path (other
than the `'function'` sentinel) that the type resolver cannot resolve,
it logs the failure and returns an empty namespace; no exception
reaches the caller. -/
theorem c8_unresolvable_class_path (env : ClassEnv) (s : String)
    (scope : List (String × PyObj)) (limit : Nat)
    (hs : s ≠ "function") (hf : env.findClass s = Option.none) :
    class_namespace env (.str s) scope limit =
      .ok (.ns [], [.typeLoadError s]) := by
  simp [class_namespace, hs, hf]

theorem c8_witness :
    ("NoSuchModule.NoSuchClass" ≠ "function") ∧
    envSentinel.findClass "NoSuchModule.NoSuchClass" = Option.none ∧
    class_namespace envSentinel (.str "NoSuchModule.NoSuchClass") [] 10 =
      .ok (.ns [], [.typeLoadError "NoSuchModule.NoSuchClass"]) :=
  ⟨by decide, rfl,
    c8_unresolvable_class_path envSentinel "NoSuchModule.NoSuchClass" [] 10
      (by decide) rfl⟩

/-! ## Claim C7 -/

/-- C7, counterexample: on the cyclic class table `envCycle` (class
`A` has a non-lazy component of class `A`), discovery does not detect
the repeat visitation and does not return a partial path list: at
recursion budget 50 it raises `RecursionError`, contradicting the
claimed fail-closed behaviour. -/
theorem c7_counterexample_no_fail_closed :
    inspect_device_cls envCycle (.cls "T") "A" [] 50 =
      .error .recursionError := rfl

/-- C7, amended: the implementation performs no repeat-visitation
detection.  On a class graph where a component's class transitively
contains itself, `inspect_device_cls` recurses until the interpreter
recursion limit is exhausted, whatever that limit is, and the
resulting `RecursionError` propagates; it never returns the partial
path list.  Termination is only guaranteed for acyclic class graphs. -/
theorem c7_amended_cycle_recursion_error :
    ∀ (limit : Nat) (cache : Cache), lookupKey "A" cache = Option.none →
      inspect_device_cls envCycle (.cls "T") "A" cache limit =
        .error .recursionError := by
  intro limit
  induction limit with
  | zero => intro cache _; rfl
  | succ n ih =>
    intro cache h
    have hrec := ih cache h
    have hsub : envCycle.subclass "A" "Device" = true := rfl
    have hcomp : envCycle.components "A" = [("s", ⟨some "A", false⟩)] := rfl
    simp [inspect_device_cls, h, hsub, hcomp, inspectComps, issubclassE, hrec]

theorem c7_witness :
    lookupKey "A" ([] : Cache) = Option.none ∧
    inspect_device_cls envCycle (.cls "T") "A" [] 5 =
      .error .recursionError :=
  ⟨rfl, c7_amended_cycle_recursion_error 5 [] rfl⟩

/-! ## Claim C5 -/

/-- C5, counterexample: `class_namespace` does silently overwrite.  In
`envShadow`, the scope stores `scopeD` under name `"m"`; the discovered
subdevice `subdevD` of `devShadow` has `device.name = "m"` as well, and
the final namespace holds `subdevD` at `"m"` with an empty log — the
earlier, different value was overwritten without any warning. -/
theorem c5_counterexample_class_namespace_overwrites :
    class_namespace envShadow (.type "D")
        [("m", scopeD), ("adev", devShadow)] 10 =
      .ok (.ns [("m", subdevD)], []) ∧ subdevD ≠ scopeD :=
  ⟨rfl, by simp [subdevD, scopeD]⟩

/-- C5, amended: the no-silent-overwrite guarantee holds for
`tree_namespace` (while `class_namespace` resolves collisions
last-writer-wins with no warning): when a child key collides with an
attribute the node's container already exposes, and the container
accepts attribute assignment, the container's value at that key is
preserved in the unpacked result, the conflicting subtree is dropped,
and a warning is logged. -/
theorem c5_amended_tree_preserves (slot : Option PyObj)
    (children : List (String × Node)) (key : String)
    (hset : settableB (initLeaf slot) = true)
    (hhas : hasattrB (initLeaf slot) key = true)
    (hmem : key ∈ children.map Prod.fst)
    (hnodup : (children.map Prod.fst).Nodup) :
    getattrO (unpackNode (.mk slot children)).1 key =
      getattrO (initLeaf slot) key ∧
    LogMsg.overwriteWarn key ∈ (unpackNode (.mk slot children)).2 := by
  obtain ⟨p, hp, hp1⟩ := List.mem_map.mp hmem
  obtain ⟨c0, rfl⟩ : ∃ c0, p = (key, c0) := ⟨p.2, by rw [← hp1]⟩
  obtain ⟨l1, l2, rfl⟩ := List.append_of_mem hp
  rw [List.map_append, List.map_cons] at hnodup
  have hnd := List.nodup_middle.mp hnodup
  rcases List.nodup_cons.mp hnd with ⟨hkeyout, _⟩
  have hk1 : key ∉ l1.map Prod.fst :=
    fun hcon => hkeyout (List.mem_append_left _ hcon)
  have hk2 : key ∉ l2.map Prod.fst :=
    fun hcon => hkeyout (List.mem_append_right _ hcon)
  have hun : unpackNode (.mk slot (l1 ++ (key, c0) :: l2)) =
      unpackNode.go (unpackNode.go (initLeaf slot, []) l1) ((key, c0) :: l2) := by
    rw [unpack_go_append]
    simp only [unpackNode]
  obtain ⟨hA1, hA2, _⟩ := unpack_go_preserve key l1 (initLeaf slot, []) hset hk1
  have hAhas : hasattrB (unpackNode.go (initLeaf slot, []) l1).1 key = true := by
    show (lookupKey key (attrsOf _)).isSome = true
    have : getattrO (unpackNode.go (initLeaf slot, []) l1).1 key =
        getattrO (initLeaf slot) key := hA2
    rw [show lookupKey key
        (attrsOf (unpackNode.go (initLeaf slot, []) l1).1) =
        getattrO (initLeaf slot) key from this]
    exact hhas
  rw [hun]
  simp only [unpackNode.go, hAhas, if_pos]
  obtain ⟨_, hB2, hB3⟩ := unpack_go_preserve key l2
    ((unpackNode.go (initLeaf slot, []) l1).1,
     (unpackNode.go (initLeaf slot, []) l1).2 ++ [.overwriteWarn key]) hA1 hk2
  constructor
  · rw [hB2]
    exact hA2
  · exact hB3 _ (List.mem_append_right _ (List.mem_singleton_self _))

theorem c5_witness :
    settableB (initLeaf (some
        (.inst "C" Option.none [("g", .func "f" [])] true))) = true ∧
    hasattrB (initLeaf (some
        (.inst "C" Option.none [("g", .func "f" [])] true))) "g" = true ∧
    "g" ∈ ([("g", Node.mk (some (.ns [])) [])].map Prod.fst) ∧
    (([("g", Node.mk (some (.ns [])) [])].map Prod.fst)).Nodup ∧
    (getattrO (unpackNode (.mk (some
        (.inst "C" Option.none [("g", .func "f" [])] true))
        [("g", Node.mk (some (.ns [])) [])])).1 "g" =
      getattrO (initLeaf (some
        (.inst "C" Option.none [("g", .func "f" [])] true))) "g" ∧
    LogMsg.overwriteWarn "g" ∈ (unpackNode (.mk (some
        (.inst "C" Option.none [("g", .func "f" [])] true))
        [("g", Node.mk (some (.ns [])) [])])).2) :=
  ⟨rfl, rfl, by simp, by simp,
    c5_amended_tree_preserves _ _ _ rfl rfl (by simp) (by simp)⟩

/-! ## Claim C9 -/

/-- C9: when attribute assignment on a node's chosen container fails
because the leaf object does not support dynamic attributes, the leaf
is discarded, a fresh namespace container is synthesized, and the
attachment is retried on the replacement: for `"a_b"` bound to a
non-settable `P` and `"a_b_c"` bound to `Y`, the result exposes
`root.a.b.c is Y` with `root.a.b` a synthesized container, and the
replacement warning is logged. -/
theorem c9_incompatible_leaf_replaced (P Y : PyObj)
    (hP : settableB P = false) (hPc : hasattrB P "c" = false)
    (hPn : P ≠ PyObj.none) (hYn : Y ≠ PyObj.none) :
    tree_namespace (some [("a_b", P), ("a_b_c", Y)]) =
      .ok (.ns [("a", .ns [("b", .ns [("c", Y)])])], [.nodeWarn]) ∧
    getattrPath (.ns [("a", .ns [("b", .ns [("c", Y)])])]) ["a", "b", "c"]
      = some Y := by
  have hY2 : initLeaf (some Y) = Y := initLeaf_of_ne hYn
  have hP2 : initLeaf (some P) = P := initLeaf_of_ne hPn
  have hsetP : setattrO P "c" Y = Option.none :=
    setattrO_none_of_not_settable hP "c" Y
  have hbuild : buildTree [("a_b", P), ("a_b_c", Y)] =
      (.mk Option.none [("a", .mk Option.none
        [("b", .mk (some P) [("c", .mk (some Y) [])])])], []) := by
    simp [buildTree, buildStep, insertNode, emptyNode, lookupKey,
      show splitName "a_b" = ["a", "b"] from rfl,
      show splitName "a_b_c" = ["a", "b", "c"] from rfl,
      show checkKeys "a_b" ["a", "b"] = Option.none from rfl,
      show checkKeys "a_b_c" ["a", "b", "c"] = Option.none from rfl]
  have hc : unpackNode (.mk (some Y) []) = (Y, []) := by
    simp [unpackNode, unpackNode.go, hY2]
  have hb : unpackNode (.mk (some P) [("c", .mk (some Y) [])]) =
      (.ns [("c", Y)], [.nodeWarn]) := by
    rw [unpackNode_single, hP2, hc, hPc]
    simp [hsetP]
  have ha : unpackNode (.mk Option.none
      [("b", .mk (some P) [("c", .mk (some Y) [])])]) =
      (.ns [("b", .ns [("c", Y)])], [.nodeWarn]) := by
    rw [unpackNode_single, hb]
    simp [initLeaf, hasattrB, attrsOf, lookupKey, setattrO, setKey]
  have hroot : unpackNode (.mk Option.none [("a", .mk Option.none
      [("b", .mk (some P) [("c", .mk (some Y) [])])])]) =
      (.ns [("a", .ns [("b", .ns [("c", Y)])])], [.nodeWarn]) := by
    rw [unpackNode_single, ha]
    simp [initLeaf, hasattrB, attrsOf, lookupKey, setattrO, setKey]
  refine ⟨?_, rfl⟩
  simp [tree_namespace, hbuild, hroot]

theorem c9_witness :
    settableB (.inst "int" Option.none [] false) = false ∧
    hasattrB (.inst "int" Option.none [] false) "c" = false ∧
    (PyObj.inst "int" Option.none [] false) ≠ PyObj.none ∧
    (PyObj.ns []) ≠ PyObj.none ∧
    tree_namespace (some [("a_b", .inst "int" Option.none [] false),
        ("a_b_c", .ns [])]) =
      .ok (.ns [("a", .ns [("b", .ns [("c", .ns [])])])], [.nodeWarn]) :=
  ⟨rfl, rfl, by simp, by simp,
    (c9_incompatible_leaf_replaced (.inst "int" Option.none [] false)
      (.ns []) rfl rfl (by simp) (by simp)).1⟩

/-! ## Claim C2 -/

/-- C2, counterexample: the valid name `"a_b"` is bound to a
non-settable object, but because the name `"a_b_c"` extends its path,
unpacking replaces that object with a synthesized container: the
object bound to `"a_b"` is not reachable at `root.a.b`, which instead
holds a namespace. -/
theorem c2_counterexample_displaced_leaf :
    tree_namespace (some [("a_b", .inst "int" Option.none [] false),
        ("a_b_c", .ns [])]) =
      .ok (.ns [("a", .ns [("b", .ns [("c", .ns [])])])], [.nodeWarn]) ∧
    checkKeys "a_b" (splitName "a_b") = Option.none ∧
    getattrPath (.ns [("a", .ns [("b", .ns [("c", .ns [])])])])
        (splitName "a_b") = some (.ns [("c", .ns [])]) ∧
    (PyObj.ns [("c", .ns [])]) ≠ PyObj.inst "int" Option.none [] false :=
  ⟨rfl, rfl, rfl, by simp⟩

/-- C2, amended: every valid name bound to a non-`None` object is
reachable at the attribute path of its underscore-split segments,
provided no other name's segment path is a prefix of its path nor
extends its path (interfering names can displace the object, as the
counterexample shows). -/
theorem c2_amended_valid_name_reachable (objs : List (String × PyObj))
    (name : String) (obj : PyObj) (hmem : (name, obj) ∈ objs)
    (hnodup : (objs.map Prod.fst).Nodup)
    (hvalid : checkKeys name (splitName name) = Option.none)
    (hnil : splitName name ≠ [])
    (hobj : obj ≠ PyObj.none)
    (hinterf : ∀ e ∈ objs, e.1 ≠ name →
      pathPre (splitName e.1) (splitName name) = false ∧
      pathPre (splitName name) (splitName e.1) = false) :
    ∃ root log, tree_namespace (some objs) = .ok (root, log) ∧
      getattrPath root (splitName name) = some obj := by
  refine ⟨_, _, tree_namespace_eq objs, ?_⟩
  rw [tree_spine_reach objs name obj hmem hnodup hvalid hnil hinterf,
    initLeaf_of_ne hobj]

theorem c2_witness :
    (("vacuum_gauge_main", PyObj.func "f" []) ∈
      [("vacuum_gauge_main", PyObj.func "f" [])]) ∧
    (([("vacuum_gauge_main", PyObj.func "f" [])].map Prod.fst).Nodup) ∧
    checkKeys "vacuum_gauge_main" (splitName "vacuum_gauge_main") =
      Option.none ∧
    splitName "vacuum_gauge_main" ≠ [] ∧
    (PyObj.func "f" []) ≠ PyObj.none ∧
    (∃ root log,
      tree_namespace (some [("vacuum_gauge_main", PyObj.func "f" [])]) =
        .ok (root, log) ∧
      getattrPath root (splitName "vacuum_gauge_main") =
        some (PyObj.func "f" [])) :=
  ⟨by simp, by simp, rfl, by decide, by simp,
    c2_amended_valid_name_reachable _ _ _ (by simp) (by simp) rfl (by decide)
      (by simp)
      (by intro e he hne
          rw [List.mem_singleton] at he
          subst he
          exact absurd rfl hne)⟩

/-! ## Claim C10 -/

/-- C10, counterexample: the valid name `"x_a"` is bound to `None`,
yet the returned tree yields `None` at its path `x.a`: the conflicting
native attribute `a` (holding `None`) of the object stored under `"x"`
is preserved by the no-overwrite rule, so `None` is retrievable at the
name's path. -/
theorem c10_counterexample_native_none :
    checkKeys "x_a" (splitName "x_a") = Option.none ∧
    tree_namespace (some
        [("x", .inst "C" Option.none [("a", PyObj.none)] true),
         ("x_a", PyObj.none)]) =
      .ok (.ns [("x", .inst "C" Option.none [("a", PyObj.none)] true)],
        [.overwriteWarn "a"]) ∧
    getattrPath (.ns [("x", .inst "C" Option.none [("a", PyObj.none)] true)])
        (splitName "x_a") = some PyObj.none :=
  ⟨rfl, rfl, rfl⟩

/-- C10, amended: a valid name bound to `None` is treated as having no
leaf object: the node unpacks to a synthesized namespace container, so
(provided no other name's path interferes with the name's path, and no
conflicting native attribute is preserved there, which the
counterexample shows can re-introduce a pre-existing `None`) the path
holds an empty synthesized container rather than the stored `None`. -/
theorem c10_amended_none_becomes_container (objs : List (String × PyObj))
    (name : String) (hmem : (name, PyObj.none) ∈ objs)
    (hnodup : (objs.map Prod.fst).Nodup)
    (hvalid : checkKeys name (splitName name) = Option.none)
    (hnil : splitName name ≠ [])
    (hinterf : ∀ e ∈ objs, e.1 ≠ name →
      pathPre (splitName e.1) (splitName name) = false ∧
      pathPre (splitName name) (splitName e.1) = false) :
    ∃ root log, tree_namespace (some objs) = .ok (root, log) ∧
      getattrPath root (splitName name) = some (.ns []) := by
  refine ⟨_, _, tree_namespace_eq objs, ?_⟩
  rw [tree_spine_reach objs name PyObj.none hmem hnodup hvalid hnil hinterf]
  rfl

theorem c10_witness :
    (("press_raw", PyObj.none) ∈ [("press_raw", PyObj.none)]) ∧
    (([("press_raw", PyObj.none)].map Prod.fst).Nodup) ∧
    checkKeys "press_raw" (splitName "press_raw") = Option.none ∧
    splitName "press_raw" ≠ [] ∧
    (∃ root log,
      tree_namespace (some [("press_raw", PyObj.none)]) = .ok (root, log) ∧
      getattrPath root (splitName "press_raw") = some (.ns [])) :=
  ⟨by simp, by simp, rfl, by decide,
    c10_amended_none_becomes_container _ _ (by simp) (by simp) rfl (by decide)
      (by intro e he hne
          rw [List.mem_singleton] at he
          subst he
          exact absurd rfl hne)⟩

/-! ## Lemmas about well-formed composites and the instance walk -/

theorem wfList_lookup {env : ClassEnv} :
    ∀ {attrs : List (String × PyObj)} {k : String} {o : PyObj},
      wfObj.wfList env attrs = true → lookupKey k attrs = some o →
      wfObj env o = true := by
  intro attrs
  induction attrs with
  | nil => intro k o _ h; simp [lookupKey] at h
  | cons p rest ih =>
    intro k o hwf hlk
    simp only [wfObj.wfList, Bool.and_eq_true] at hwf
    by_cases hp : p.1 = k
    · simp only [lookupKey, if_pos hp] at hlk
      cases hlk
      exact hwf.1
    · simp only [lookupKey, if_neg hp] at hlk
      exact ih hwf.2 hlk

theorem wf_device_attr {env : ClassEnv} {o : PyObj}
    (hwf : wfObj env o = true)
    (hdev : env.subclass (classOf o) "Device" = true)
    {cn : String} {cd : ComponentDef} {ccls : String}
    (hcomp : (cn, cd) ∈ env.components (classOf o))
    (hcls : cd.cls = some ccls) (hlazy : cd.lazy = false) :
    ∃ d, getattrO o cn = some d ∧ classOf d = ccls ∧
      wfObj env d = true ∧ ∃ nm, getName d = .ok nm := by
  cases o with
  | none =>
    simp only [classOf] at hdev
    simp [wfObj, hdev] at hwf
  | method m =>
    simp only [classOf] at hdev
    simp [wfObj, hdev] at hwf
  | func f attrs =>
    simp only [classOf] at hdev
    simp [wfObj, hdev] at hwf
  | ns attrs =>
    simp only [classOf] at hdev
    simp [wfObj, hdev] at hwf
  | inst c nm attrs st =>
    simp only [classOf] at hdev hcomp
    simp only [wfObj, if_pos hdev, Bool.and_eq_true] at hwf
    obtain ⟨⟨hnm, hall⟩, hwfl⟩ := hwf
    have hf := List.all_eq_true.mp hall (cn, cd) hcomp
    simp only [hcls, hlazy] at hf
    cases hlk : lookupKey cn attrs with
    | none =>
      simp only [hlk] at hf
      exact Bool.noConfusion hf
    | some d =>
      simp only [hlk] at hf
      cases d with
      | none => simp at hf
      | method m2 => simp at hf
      | func f2 a2 => simp at hf
      | ns a2 => simp at hf
      | inst c2 nm2 a2 s2 =>
        simp only [Bool.and_eq_true, beq_iff_eq] at hf
        obtain ⟨rfl, hnm2⟩ := hf
        obtain ⟨nmv, hnmv⟩ := Option.isSome_iff_exists.mp hnm2
        refine ⟨.inst c2 nm2 a2 s2, ?_, rfl, wfList_lookup hwfl hlk,
          nmv, ?_⟩
        · exact hlk
        · rw [hnmv]
          rfl

theorem walk_goodPath {env : ClassEnv} {D : String} :
    ∀ {c : String} {path : List String}, GoodPath env D c path →
    ∀ {o : PyObj}, wfObj env o = true → classOf o = c →
      ∃ d nm, walkPath o path = .ok d ∧ getName d = .ok nm ∧
        env.subclass (classOf d) D = true := by
  intro c path h
  induction h with
  | @single c cn ccls cd hdev hcomp hcls hlazy hsub =>
    intro o hwf hco
    subst hco
    obtain ⟨d, hga, hcd, hwfd, nm, hnm⟩ :=
      wf_device_attr hwf hdev hcomp hcls hlazy
    refine ⟨d, nm, ?_, hnm, ?_⟩
    · simp only [walkPath, hga]
    · rw [hcd]
      exact hsub
  | @cons c cn ccls cd rest hdev hcomp hcls hlazy hrest ih =>
    intro o hwf hco
    subst hco
    obtain ⟨d, hga, hcd, hwfd, nm, hnm⟩ :=
      wf_device_attr hwf hdev hcomp hcls hlazy
    obtain ⟨d2, nm2, hwalk, hnm2, hsub2⟩ := ih hwfd hcd
    refine ⟨d2, nm2, ?_, hnm2, hsub2⟩
    simp only [walkPath, hga]
    exact hwalk

theorem setKey_forall {P : String × PyObj → Prop} :
    ∀ {a : List (String × PyObj)} {k : String} {v : PyObj},
      (∀ q ∈ a, P q) → P (k, v) → ∀ q ∈ setKey k v a, P q := by
  intro a
  induction a with
  | nil =>
    intro k v _ hv q hq
    simp only [setKey] at hq
    rcases List.mem_singleton.mp hq with rfl
    exact hv
  | cons p rest ih =>
    intro k v ha hv q hq
    by_cases hp : p.1 = k
    · simp only [setKey, if_pos hp] at hq
      rcases List.mem_cons.mp hq with rfl | hq2
      · exact hv
      · exact ha q (List.mem_cons_of_mem _ hq2)
    · simp only [setKey, if_neg hp] at hq
      rcases List.mem_cons.mp hq with heqp | hq2
      · rw [heqp]
        exact ha p (List.mem_cons_self _ _)
      · exact ih (fun q2 hq2b => ha q2 (List.mem_cons_of_mem _ hq2b))
          hv q hq2

theorem addSubdevices_sound {env : ClassEnv} {D : String} {o : PyObj}
    (hwf : wfObj env o = true) :
    ∀ (paths : List (List String)) (a : List (String × PyObj)),
      (∀ p ∈ paths, GoodPath env D (classOf o) p) →
      (∀ q ∈ a, isinstanceB env q.2 D = true) →
      ∃ a2, addSubdevices o paths (.ns a) = .ok (.ns a2) ∧
        ∀ q ∈ a2, isinstanceB env q.2 D = true := by
  intro paths
  induction paths with
  | nil => intro a _ ha; exact ⟨a, rfl, ha⟩
  | cons path rest ih =>
    intro a hp ha
    obtain ⟨d, nm, hwalk, hname, hsub⟩ :=
      walk_goodPath (hp path (List.mem_cons_self _ _)) hwf rfl
    simp only [addSubdevices, hwalk, hname, setattrNs]
    exact ih (setKey nm d a)
      (fun p2 hp2 => hp p2 (List.mem_cons_of_mem _ hp2))
      (setKey_forall ha hsub)

/-! ## Soundness of the discovery recursion -/

theorem inspectComps_sound {env : ClassEnv} {resolved : Resolved} {c : String}
    (rec : String → Cache → Except PyErr (List (List String) × Cache))
    (hrec : ∀ c2 cache, CacheOk env resolved cache →
      ∀ attrs2 cache2, rec c2 cache = .ok (attrs2, cache2) →
        (∀ p ∈ attrs2, PathOk env resolved c2 p) ∧
          CacheOk env resolved cache2)
    (hdev : env.subclass c "Device" = true) :
    ∀ (comps : List (String × ComponentDef)) (acc : List (List String))
      (cache : Cache),
      (∀ q ∈ comps, q ∈ env.components c) →
      (∀ p ∈ acc, PathOk env resolved c p) →
      CacheOk env resolved cache →
      ∀ attrs cache2,
        inspectComps env resolved rec comps acc cache = .ok (attrs, cache2) →
        (∀ p ∈ attrs, PathOk env resolved c p) ∧
          CacheOk env resolved cache2 := by
  intro comps
  induction comps with
  | nil =>
    intro acc cache _ hacc hcache attrs cache2 heq
    simp only [inspectComps, Except.ok.injEq, Prod.mk.injEq] at heq
    obtain ⟨rfl, rfl⟩ := heq
    exact ⟨hacc, hcache⟩
  | cons q comps ih =>
    intro acc cache hsub hacc hcache attrs cache2 heq
    obtain ⟨cn, cd⟩ := q
    simp only [inspectComps] at heq
    cases hcls : cd.cls with
    | none =>
      simp only [hcls] at heq
      exact ih acc cache (fun q2 hq2 => hsub q2 (List.mem_cons_of_mem _ hq2))
        hacc hcache attrs cache2 heq
    | some ccls =>
      cases hlazy : cd.lazy with
      | true =>
        simp only [hcls, hlazy] at heq
        exact ih acc cache
          (fun q2 hq2 => hsub q2 (List.mem_cons_of_mem _ hq2))
          hacc hcache attrs cache2 heq
      | false =>
        simp only [hcls, hlazy] at heq
        cases resolved with
        | sentinel =>
          simp only [issubclassE] at heq
          exact Except.noConfusion heq
        | cls D =>
          simp only [issubclassE] at heq
          cases hr : rec ccls cache with
          | error e =>
            simp only [hr] at heq
            exact Except.noConfusion heq
          | ok pr =>
            obtain ⟨subattrs, cache3⟩ := pr
            simp only [hr] at heq
            have hrs := hrec ccls cache hcache subattrs cache3 hr
            have hmem : (cn, cd) ∈ env.components c :=
              hsub (cn, cd) (List.mem_cons_self _ _)
            have hacc2 : ∀ p ∈
                (if env.subclass ccls D = true then acc ++ [[cn]] else acc) ++
                  subattrs.map (fun a => cn :: a),
                PathOk env (.cls D) c p := by
              intro p hp
              rcases List.mem_append.mp hp with h1 | h1
              · by_cases hd : env.subclass ccls D = true
                · rw [if_pos hd] at h1
                  rcases List.mem_append.mp h1 with h2 | h2
                  · exact hacc p h2
                  · rcases List.mem_singleton.mp h2 with rfl
                    exact GoodPath.single hdev hmem hcls hlazy hd
                · rw [if_neg hd] at h1
                  exact hacc p h1
              · obtain ⟨a1, ha1, rfl⟩ := List.mem_map.mp h1
                exact GoodPath.cons hdev hmem hcls hlazy (hrs.1 a1 ha1)
            exact ih _ cache3
              (fun q2 hq2 => hsub q2 (List.mem_cons_of_mem _ hq2))
              hacc2 hrs.2 attrs cache2 heq

theorem inspect_sound {env : ClassEnv} {resolved : Resolved} :
    ∀ (limit : Nat) (c : String) (cache : Cache),
      CacheOk env resolved cache →
      ∀ attrs cache2,
        inspect_device_cls env resolved c cache limit = .ok (attrs, cache2) →
        (∀ p ∈ attrs, PathOk env resolved c p) ∧
          CacheOk env resolved cache2 := by
  intro limit
  induction limit with
  | zero =>
    intro c cache _ attrs cache2 heq
    exact Except.noConfusion heq
  | succ n ih =>
    intro c cache hcache attrs cache2 heq
    simp only [inspect_device_cls] at heq
    cases hch : lookupKey c cache with
    | some attrs0 =>
      simp only [hch, Except.ok.injEq, Prod.mk.injEq] at heq
      obtain ⟨h1, h2⟩ := heq
      subst h1
      subst h2
      exact ⟨hcache c attrs0 (lookupKey_mem hch), hcache⟩
    | none =>
      simp only [hch] at heq
      by_cases hdev : env.subclass c "Device" = true
      · rw [if_pos hdev] at heq
        cases hcomp : inspectComps env resolved
            (fun c2 ca => inspect_device_cls env resolved c2 ca n)
            (env.components c) [] cache with
        | error e =>
          simp only [hcomp] at heq
          exact Except.noConfusion heq
        | ok pr =>
          obtain ⟨attrs1, cache1⟩ := pr
          simp only [hcomp, Except.ok.injEq, Prod.mk.injEq] at heq
          obtain ⟨rfl, rfl⟩ := heq
          have hmain := inspectComps_sound
            (fun c2 ca => inspect_device_cls env resolved c2 ca n)
            (fun c2 ca hca a2 c2' h2 => ih c2 ca hca a2 c2' h2) hdev
            (env.components c) [] cache (fun q hq => hq) (by simp)
            hcache attrs1 cache1 hcomp
          refine ⟨hmain.1, ?_⟩
          intro c3 lst h3 p hp
          rcases List.mem_append.mp h3 with h4 | h4
          · exact hmain.2 c3 lst h4 p hp
          · have h5 := List.mem_singleton.mp h4
            cases h5
            exact hmain.1 p hp
      · rw [if_neg hdev] at heq
        simp only [Except.ok.injEq, Prod.mk.injEq] at heq
        obtain ⟨rfl, rfl⟩ := heq
        refine ⟨by simp, ?_⟩
        intro c3 lst h3 p hp
        rcases List.mem_append.mp h3 with h4 | h4
        · exact hcache c3 lst h4 p hp
        · have h5 := List.mem_singleton.mp h4
          cases h5
          simp at hp

theorem goodPath_lazyFree {env : ClassEnv} {D : String} :
    ∀ {c : String} {p : List String}, GoodPath env D c p → LazyFree env c p := by
  intro c p h
  induction h with
  | single hdev hcomp hcls hlazy hsub => exact LazyFree.single hcomp hcls hlazy
  | cons hdev hcomp hcls hlazy hrest ih => exact LazyFree.cons hcomp hcls hlazy ih

/-! ## Claim C4 -/

/-- C4: every attribute path discovered by `inspect_device_cls` (for a
class filter, starting with the per-call empty cache) traverses only
non-lazy components that expose a declared class: no lazy or
otherwise-excluded slot is matched against the desired type nor
recursed through. -/
theorem c4_no_lazy_in_paths (env : ClassEnv) (D : String) (c : String)
    (limit : Nat) (attrs : List (List String)) (cache2 : Cache)
    (h : inspect_device_cls env (.cls D) c [] limit = .ok (attrs, cache2)) :
    ∀ p ∈ attrs, LazyFree env c p := by
  intro p hp
  have hs := inspect_sound limit c [] (by intro c3 lst h3; simp at h3)
    attrs cache2 h
  exact goodPath_lazyFree (hs.1 p hp)

theorem c4_witness :
    inspect_device_cls envLazy (.cls "T") "Dev" [] 10 =
      .ok ([["good"]], [("T", []), ("Dev", [["good"]])]) ∧
    ∀ p ∈ [["good"]], LazyFree envLazy "Dev" p :=
  ⟨rfl, c4_no_lazy_in_paths envLazy "T" "Dev" 10 [["good"]]
    [("T", []), ("Dev", [["good"]])] rfl⟩

/-! ## Claim C1 -/

theorem procScope_sound {env : ClassEnv} {resolved : Resolved} :
    ∀ (scope : List (String × PyObj)) (a : List (String × PyObj))
      (cache : Cache) (limit : Nat),
      wfScope env scope = true →
      CacheOk env resolved cache →
      (∀ q ∈ a, ResolvedPred env resolved q.2) →
      ∀ space2, procScope env resolved scope (.ns a) cache limit = .ok space2 →
        ∃ a2, space2 = .ns a2 ∧ ∀ q ∈ a2, ResolvedPred env resolved q.2 := by
  intro scope
  induction scope with
  | nil =>
    intro a cache limit _ _ ha space2 heq
    simp only [procScope, Except.ok.injEq] at heq
    exact ⟨a, heq.symm, ha⟩
  | cons e rest ih =>
    intro a cache limit hwfs cacheok ha space2 heq
    obtain ⟨name, obj⟩ := e
    simp only [wfScope, Bool.and_eq_true] at hwfs
    obtain ⟨hwfo, hwfr⟩ := hwfs
    simp only [procScope] at heq
    obtain ⟨a1, hspace1, ha1⟩ : ∃ a1,
        (if (match resolved with
            | Resolved.sentinel => isFunctionB obj
            | Resolved.cls c => isinstanceB env obj c) = true
          then setattrNs (.ns a) name obj else PyObj.ns a) = .ns a1 ∧
        ∀ q ∈ a1, ResolvedPred env resolved q.2 := by
      cases hinc : (match resolved with
          | Resolved.sentinel => isFunctionB obj
          | Resolved.cls c => isinstanceB env obj c) with
      | true =>
        refine ⟨setKey name obj a, by simp [setattrNs], ?_⟩
        have hpred : ResolvedPred env resolved obj := by
          cases resolved with
          | sentinel => exact hinc
          | cls c => exact hinc
        exact setKey_forall ha hpred
      | false => exact ⟨a, by simp, ha⟩
    rw [hspace1] at heq
    by_cases hdev : isinstanceB env obj "Device" = true
    · rw [if_pos hdev] at heq
      cases hins : inspect_device_cls env resolved (classOf obj) cache
          limit with
      | error e2 =>
        simp only [hins] at heq
        exact Except.noConfusion heq
      | ok pr =>
        obtain ⟨attrsList, cache2⟩ := pr
        simp only [hins] at heq
        have hisound := inspect_sound limit (classOf obj) cache cacheok
          attrsList cache2 hins
        cases resolved with
        | sentinel =>
          have hempty : attrsList = [] := by
            cases attrsList with
            | nil => rfl
            | cons p ps => exact (hisound.1 p (List.mem_cons_self _ _)).elim
          subst hempty
          simp only [addSubdevices] at heq
          exact ih a1 cache2 limit hwfr hisound.2 ha1 space2 heq
        | cls D =>
          obtain ⟨a2, hadd, ha2⟩ := addSubdevices_sound hwfo attrsList a1
            (fun p hp => hisound.1 p hp) ha1
          simp only [hadd] at heq
          exact ih a2 cache2 limit hwfr hisound.2 ha2 space2 heq
    · rw [if_neg hdev] at heq
      exact ih a1 cache limit hwfr cacheok ha1 space2 heq

theorem map_pair_ok {x : Except PyErr PyObj} {space : PyObj}
    {log : List LogMsg}
    (h : x.map (fun sp => (sp, ([] : List LogMsg))) = .ok (space, log)) :
    x = .ok space ∧ log = [] := by
  cases x with
  | error e => simp [Except.map] at h
  | ok v =>
    simp only [Except.map, Except.ok.injEq, Prod.mk.injEq] at h
    exact ⟨by rw [h.1], h.2.symm⟩

/-- C1: every object stored in a namespace successfully returned by
`class_namespace` matches the requested filter: for a type `D` (given
directly or as a resolvable textual path) its runtime class is `D` or
a subclass; under the `'function'` sentinel it is a plain function.
The scope is assumed well-formed with respect to the composite data
model (device instances carry sub-instances of their slots' declared
classes). -/
theorem c1_class_namespace_types (env : ClassEnv) (cls : ClsArg)
    (scope : List (String × PyObj)) (limit : Nat)
    (hwf : wfScope env scope = true)
    (space : PyObj) (log : List LogMsg)
    (h : class_namespace env cls scope limit = .ok (space, log)) :
    ∃ attrs, space = .ns attrs ∧
      ∀ q ∈ attrs, matchesTarget env cls q.2 := by
  have hempty : CacheOk env (Resolved.sentinel) ([] : Cache) := by
    intro c3 lst h3; simp at h3
  cases cls with
  | type c =>
    simp only [class_namespace] at h
    obtain ⟨hx, hlog⟩ := map_pair_ok h
    obtain ⟨a2, hsp, hpred⟩ := procScope_sound scope [] [] limit hwf
      (by intro c3 lst h3; simp at h3) (by simp) space hx
    exact ⟨a2, hsp, fun q hq => hpred q hq⟩
  | str s =>
    by_cases hs : s = "function"
    · subst hs
      simp only [class_namespace, if_pos rfl] at h
      obtain ⟨hx, hlog⟩ := map_pair_ok h
      obtain ⟨a2, hsp, hpred⟩ := procScope_sound scope [] [] limit hwf
        hempty (by simp) space hx
      refine ⟨a2, hsp, fun q hq => ?_⟩
      simp only [matchesTarget, if_pos rfl]
      exact hpred q hq
    · simp only [class_namespace, if_neg hs] at h
      cases hf : env.findClass s with
      | none =>
        simp only [hf, Except.ok.injEq, Prod.mk.injEq] at h
        obtain ⟨h1, h2⟩ := h
        exact ⟨[], h1.symm, by simp⟩
      | some c =>
        simp only [hf] at h
        obtain ⟨hx, hlog⟩ := map_pair_ok h
        obtain ⟨a2, hsp, hpred⟩ := procScope_sound scope [] [] limit hwf
          (by intro c3 lst h3; simp at h3) (by simp) space hx
        refine ⟨a2, hsp, fun q hq => ?_⟩
        simp only [matchesTarget, if_neg hs, hf]
        exact hpred q hq

theorem c1_witness :
    wfScope envShadow [("m", scopeD), ("adev", devShadow)] = true ∧
    (∃ attrs, (PyObj.ns [("m", subdevD)]) = .ns attrs ∧
      ∀ q ∈ attrs, matchesTarget envShadow (.type "D") q.2) :=
  ⟨rfl, c1_class_namespace_types envShadow (.type "D")
    [("m", scopeD), ("adev", devShadow)] 10 rfl (.ns [("m", subdevD)]) []
    rfl⟩

/-! ## Claim C6 -/

theorem checkKeys_isSome_of_bad (name : String) :
    ∀ (keys : List String),
      (∃ k ∈ keys, iskeyword k = true ∨ isidentifier k = false) →
      ∃ k, checkKeys name keys = some (.keywordWarn k name) ∨
        checkKeys name keys = some (.identWarn k name) := by
  intro keys
  induction keys with
  | nil => rintro ⟨k, hk, _⟩; simp at hk
  | cons k1 rest ih =>
    rintro ⟨k, hk, hbad⟩
    by_cases h1 : iskeyword k1 = true
    · exact ⟨k1, Or.inl (by simp [checkKeys, h1])⟩
    · by_cases h2 : isidentifier k1 = false
      · refine ⟨k1, Or.inr ?_⟩
        simp [checkKeys, h1, h2]
      · have h2t : isidentifier k1 = true := by
          revert h2; cases isidentifier k1 <;> simp
        have hk1good : ¬(k = k1) := by
          intro hcon
          subst hcon
          rcases hbad with hb | hb
          · exact h1 hb
          · exact h2 hb
        have hkr : k ∈ rest := by
          rcases List.mem_cons.mp hk with hcg | hcg
          · exact absurd hcg hk1good
          · exact hcg
        obtain ⟨k2, hk2⟩ := ih ⟨k, hkr, hbad⟩
        have hred : checkKeys name (k1 :: rest) = checkKeys name rest := by
          simp [checkKeys, h1, h2t]
        rw [hred]
        exact ⟨k2, hk2⟩

theorem buildNode_filter (name : String)
    (hbad : checkKeys name (splitName name) ≠ Option.none) :
    ∀ (L : List (String × PyObj)) (t : Node),
      buildNode t (L.filter (fun e => e.1 != name)) = buildNode t L := by
  intro L
  induction L with
  | nil => intro t; rfl
  | cons e rest ih =>
    intro t
    by_cases he : e.1 = name
    · have hf : (e.1 != name) = false := by simp [he]
      rw [List.filter_cons]
      simp only [hf, Bool.false_eq_true, if_false]
      cases hc : checkKeys name (splitName name) with
      | none => exact absurd hc hbad
      | some w =>
        have : checkKeys e.1 (splitName e.1) = some w := by rw [he]; exact hc
        conv_rhs => rw [buildNode]
        simp only [this]
        exact ih t
    · have hf : (e.1 != name) = true := by simp [he]
      rw [List.filter_cons]
      simp only [hf, if_true]
      simp only [buildNode]
      cases hc : checkKeys e.1 (splitName e.1) with
      | some w => simp only [hc]; exact ih t
      | none => simp only [hc]; exact ih _

theorem buildLog_mem (name : String) (obj : PyObj) (w : LogMsg)
    (hc : checkKeys name (splitName name) = some w) :
    ∀ (L : List (String × PyObj)), (name, obj) ∈ L → w ∈ buildLog L := by
  intro L
  induction L with
  | nil => intro h; simp at h
  | cons e rest ih =>
    intro hmem
    rcases List.mem_cons.mp hmem with he | hmem2
    · rw [← he]
      simp only [buildLog, hc]
      exact List.mem_cons_self _ _
    · simp only [buildLog]
      cases hc2 : checkKeys e.1 (splitName e.1) with
      | some w2 => exact List.mem_cons_of_mem _ (ih hmem2)
      | none => exact ih hmem2

/-- C6: a name containing a reserved-keyword segment or an
invalid-identifier segment is excluded in full: the resulting root
namespace is identical to the one built from the mapping with that
entry removed (no partial placement anywhere in the tree), and a
warning naming the offending segment and the name is logged. -/
theorem c6_invalid_name_fully_excluded (objs : List (String × PyObj))
    (name : String) (obj : PyObj) (hmem : (name, obj) ∈ objs)
    (hbad : ∃ k ∈ splitName name,
      iskeyword k = true ∨ isidentifier k = false) :
    ∃ root log log2,
      tree_namespace (some objs) = .ok (root, log) ∧
      tree_namespace (some (objs.filter (fun e => e.1 != name))) =
        .ok (root, log2) ∧
      ∃ k, LogMsg.keywordWarn k name ∈ log ∨
        LogMsg.identWarn k name ∈ log := by
  obtain ⟨k, hck⟩ := checkKeys_isSome_of_bad name (splitName name) hbad
  have hsome : checkKeys name (splitName name) ≠ Option.none := by
    rcases hck with h | h <;> rw [h] <;> simp
  have h2 := tree_namespace_eq (objs.filter (fun e => e.1 != name))
  rw [buildNode_filter name hsome objs emptyNode] at h2
  refine ⟨_, _, _, tree_namespace_eq objs, h2, ?_⟩
  rcases hck with h | h
  · exact ⟨k, Or.inl (List.mem_append_left _
      (buildLog_mem name obj _ h objs hmem))⟩
  · exact ⟨k, Or.inr (List.mem_append_left _
      (buildLog_mem name obj _ h objs hmem))⟩

theorem c6_witness :
    (("class_x", PyObj.ns []) ∈ [("class_x", PyObj.ns [])]) ∧
    (∃ k ∈ splitName "class_x",
      iskeyword k = true ∨ isidentifier k = false) ∧
    (∃ root log log2,
      tree_namespace (some [("class_x", PyObj.ns [])]) = .ok (root, log) ∧
      tree_namespace (some ([("class_x", PyObj.ns [])].filter
        (fun e => e.1 != "class_x"))) = .ok (root, log2) ∧
      ∃ k, LogMsg.keywordWarn k "class_x" ∈ log ∨
        LogMsg.identWarn k "class_x" ∈ log) :=
  ⟨by simp, by decide,
    c6_invalid_name_fully_excluded [("class_x", PyObj.ns [])] "class_x"
      (PyObj.ns []) (by simp) (by decide)⟩

end HutchPython
